import Mathlib

/-!
Verification of the singly linked list library (three ownership variants:
Box-owned chain, Rc/RefCell shared chain, raw NonNull pointer chain).

The Box variant owns its chain uniquely, so it is embedded functionally:
a list state is the length field together with the sequence of values on
the node chain hanging off `head`.  The Rc/RefCell and NonNull variants
alias nodes (the `tail` handle may point at a node that several owners
reach, or at a detached node), so they are embedded against an explicit
heap: a store of nodes addressed by allocation index, with `head`/`tail`
as optional addresses.  Every operation mirrors the control flow of its
Rust source; places where the Rust unwraps an `Option`/`Result` (a
potential panic) are modelled by an outer `Option` with `none` for the
panic.
-/

namespace Stl

/-- Heap node: one value plus the address of the next node, if any.
Mirrors `LinkedListNode` of the Rc/RefCell and NonNull variants. -/
structure Node (T : Type) where
  value : T
  next : Option Nat
deriving DecidableEq

/-- The heap: nodes addressed by allocation index. -/
abbrev Store (T : Type) := List (Node T)

variable {T : Type}

/-- Read the node at address `i` (`none` when the address is invalid,
which never happens on states produced by the modelled code). -/
def getNode (st : Store T) (i : Nat) : Option (Node T) := st[i]?

/-- Overwrite the `next` field of the node at address `i`
(mirrors an in-place pointer update through `RefCell`/`NonNull`). -/
def setNext (st : Store T) (i : Nat) (n : Option Nat) : Store T :=
  match st[i]? with
  | some nd => st.set i ⟨nd.value, n⟩
  | none => st

/-- Allocate a fresh node (mirrors `Rc::new`/`Box::into_raw`);
returns the grown store and the new address. -/
def allocNode (st : Store T) (nd : Node T) : Store T × Nat := (st ++ [nd], st.length)

/-- Follow `next` pointers `k` times starting from address `i`,
mirroring the Rust loops `current = current.next.unwrap()`;
`none` models the panic on a missing successor. -/
def traverseN (st : Store T) : Nat → Nat → Option Nat
  | i, 0 => some i
  | i, k + 1 =>
    match (getNode st i).bind Node.next with
    | some j => traverseN st j k
    | none => none

/-- Values reachable from an address by following `next` pointers, with
explicit fuel standing in for the Rust `while let` loop (all modelled
states are acyclic, so fuel `st.length` exhausts the chain). -/
def chainValsFuel (st : Store T) : Nat → Option Nat → List T
  | 0, _ => []
  | _, none => []
  | fuel + 1, some i =>
    match getNode st i with
    | none => []
    | some nd => nd.value :: chainValsFuel st fuel nd.next

/-- The chain starting at `h` visits exactly the addresses `ids` carrying
the values `vals`, ending at the end-of-chain marker `None`. -/
def NodeChain (st : Store T) : Option Nat → List Nat → List T → Prop
  | h, [], [] => h = none
  | h, i :: ids, v :: vals =>
    h = some i ∧ ∃ nd, getNode st i = some nd ∧ nd.value = v ∧ NodeChain st nd.next ids vals
  | _, _, _ => False

/-- Separator written between two rendered values. -/
def sepArrow : String := " -> "

/-- Opening parenthesis of the rendering. -/
def lpar : String := "("

/-- Closing parenthesis of the rendering. -/
def rpar : String := ")"

/-- Rendering of the empty list. -/
def emptyRender : String := "()"

/-- Body of the `Display` loop shared by the Rc/RefCell and NonNull
variants: walk the values, writing the separator before every value but
the first. -/
def renderLoop (f : T → String) : Bool → List T → String
  | _, [] => ""
  | first, x :: xs => (if first then "" else sepArrow) ++ f x ++ renderLoop f false xs

/-- Rendering body as the specification words it: values in order,
separated by `" -> "`, with no trailing separator. -/
def specRenderCore (f : T → String) : List T → String
  | [] => ""
  | [x] => f x
  | x :: y :: rest => f x ++ sepArrow ++ specRenderCore f (y :: rest)

/-- Full rendering as the specification words it: the separated values
wrapped in parentheses, `"()"` for the empty list. -/
def specRender (f : T → String) (vs : List T) : String :=
  lpar ++ specRenderCore f vs ++ rpar

/-- Indices (counted from `s`) of the elements of `vs` equal to `v`,
in order: the reference answer for the value-to-indices search. -/
def matchIxFrom [DecidableEq T] (v : T) : Nat → List T → List Nat
  | _, [] => []
  | s, x :: xs =>
    if x = v then s :: matchIxFrom v (s + 1) xs else matchIxFrom v (s + 1) xs

theorem mem_of_lookup {l : List Nat} {k a : Nat} (h : l[k]? = some a) : a ∈ l := by
  obtain ⟨hlt, he⟩ := List.getElem?_eq_some.mp h
  exact he ▸ l.getElem_mem hlt

theorem getNode_lt_length {st : Store T} {i : Nat} {nd : Node T}
    (h : getNode st i = some nd) : i < st.length := by
  by_contra hge
  rw [getNode, List.getElem?_eq_none (Nat.le_of_not_lt hge)] at h
  exact Option.noConfusion h

theorem getNode_append {st nds : Store T} {i : Nat}
    (h : i < st.length) : getNode (st ++ nds) i = getNode st i := by
  simp [getNode, List.getElem?_append_left h]

theorem getNode_append_self (st : Store T) (nd : Node T) :
    getNode (st ++ [nd]) st.length = some nd := by
  simp [getNode, List.getElem?_concat_length]

theorem getNode_setNext_ne {st : Store T} {i j : Nat} (n : Option Nat) (hne : j ≠ i) :
    getNode (setNext st i n) j = getNode st j := by
  unfold setNext
  cases h : st[i]? with
  | none => rfl
  | some nd => simp [getNode, List.getElem?_set_ne (Ne.symm hne)]

theorem getNode_setNext_self {st : Store T} {i : Nat} {nd : Node T} (n : Option Nat)
    (h : getNode st i = some nd) :
    getNode (setNext st i n) i = some ⟨nd.value, n⟩ := by
  have hlt : i < st.length := getNode_lt_length h
  rw [getNode] at h
  unfold setNext
  rw [h]
  simp [getNode, List.getElem?_set_eq_of_lt _ hlt]

theorem nodeChain_cons {st : Store T} {h : Option Nat} {i : Nat} {ids : List Nat}
    {v : T} {vals : List T} :
    NodeChain st h (i :: ids) (v :: vals) ↔
      h = some i ∧ ∃ nd, getNode st i = some nd ∧ nd.value = v ∧ NodeChain st nd.next ids vals :=
  Iff.rfl

theorem nodeChain_length {st : Store T} :
    ∀ (ids : List Nat) (vals : List T) (h : Option Nat),
      NodeChain st h ids vals → ids.length = vals.length := by
  intro ids
  induction ids with
  | nil =>
    intro vals h hc
    cases vals with
    | nil => rfl
    | cons v vs => exact absurd hc (by simp [NodeChain])
  | cons i is ih =>
    intro vals h hc
    cases vals with
    | nil => exact absurd hc (by simp [NodeChain])
    | cons v vs =>
      obtain ⟨-, nd, -, -, hrest⟩ := nodeChain_cons.mp hc
      simpa using ih vs nd.next hrest

theorem nodeChain_valid {st : Store T} :
    ∀ (ids : List Nat) (vals : List T) (h : Option Nat),
      NodeChain st h ids vals → ∀ i ∈ ids, i < st.length := by
  intro ids
  induction ids with
  | nil => intro vals h _ i hi; simp at hi
  | cons i0 is ih =>
    intro vals h hc i hi
    cases vals with
    | nil => exact absurd hc (by simp [NodeChain])
    | cons v vs =>
      obtain ⟨-, nd, hget, -, hrest⟩ := nodeChain_cons.mp hc
      rcases List.mem_cons.mp hi with h1 | h1
      · exact h1 ▸ getNode_lt_length hget
      · exact ih vs nd.next hrest i h1

theorem nodeChain_append {st : Store T} (nds : Store T) :
    ∀ (ids : List Nat) (vals : List T) (h : Option Nat),
      NodeChain st h ids vals → NodeChain (st ++ nds) h ids vals := by
  intro ids
  induction ids with
  | nil =>
    intro vals h hc
    cases vals with
    | nil => exact hc
    | cons v vs => exact absurd hc (by simp [NodeChain])
  | cons i0 is ih =>
    intro vals h hc
    cases vals with
    | nil => exact absurd hc (by simp [NodeChain])
    | cons v vs =>
      obtain ⟨hh, nd, hget, hv, hrest⟩ := nodeChain_cons.mp hc
      exact nodeChain_cons.mpr
        ⟨hh, nd, by rw [getNode_append (getNode_lt_length hget)]; exact hget, hv,
          ih vs nd.next hrest⟩

theorem nodeChain_setNext {st : Store T} {j : Nat} (n : Option Nat) :
    ∀ (ids : List Nat) (vals : List T) (h : Option Nat),
      NodeChain st h ids vals → j ∉ ids → NodeChain (setNext st j n) h ids vals := by
  intro ids
  induction ids with
  | nil =>
    intro vals h hc _
    cases vals with
    | nil => exact hc
    | cons v vs => exact absurd hc (by simp [NodeChain])
  | cons i0 is ih =>
    intro vals h hc hj
    cases vals with
    | nil => exact absurd hc (by simp [NodeChain])
    | cons v vs =>
      obtain ⟨hh, nd, hget, hv, hrest⟩ := nodeChain_cons.mp hc
      have hne : i0 ≠ j := fun he => hj (he ▸ List.mem_cons_self i0 is)
      exact nodeChain_cons.mpr
        ⟨hh, nd, by rw [getNode_setNext_ne n hne]; exact hget, hv,
          ih vs nd.next hrest (fun hmem => hj (List.mem_cons_of_mem i0 hmem))⟩

theorem nodeChain_traverse {st : Store T} :
    ∀ (ids : List Nat) (vals : List T) (h : Option Nat) (k i : Nat),
      NodeChain st h ids vals → ids[k]? = some i →
      ∃ i0 nd, h = some i0 ∧ traverseN st i0 k = some i ∧
        getNode st i = some nd ∧ vals[k]? = some nd.value := by
  intro ids
  induction ids with
  | nil => intro vals h k i _ hk; simp at hk
  | cons j is ih =>
    intro vals h k i hc hk
    cases vals with
    | nil => exact absurd hc (by simp [NodeChain])
    | cons v vs =>
      obtain ⟨hh, nd0, hget0, hv0, hrest⟩ := nodeChain_cons.mp hc
      cases k with
      | zero =>
        have hij : j = i := by simpa using hk
        subst hij
        exact ⟨j, nd0, hh, rfl, hget0, by simp [hv0]⟩
      | succ k =>
        have hk' : is[k]? = some i := by simpa using hk
        obtain ⟨i1, nd, hh1, htrav, hget, hval⟩ := ih vs nd0.next k i hrest hk'
        refine ⟨j, nd, hh, ?_, hget, by simpa using hval⟩
        have hb : (getNode st j).bind Node.next = some i1 := by rw [hget0]; exact hh1
        simp only [traverseN]
        rw [hb]
        exact htrav

theorem nodeChain_push (st : Store T) (v : T) (h : Option Nat)
    (ids : List Nat) (vals : List T) (hc : NodeChain st h ids vals) :
    NodeChain (st ++ [⟨v, h⟩]) (some st.length) (st.length :: ids) (v :: vals) :=
  nodeChain_cons.mpr
    ⟨rfl, ⟨v, h⟩, getNode_append_self st _, rfl, nodeChain_append _ ids vals h hc⟩

theorem nodeChain_splice {st : Store T} (v : T) (i : Nat) (nd : Node T)
    (hnd : getNode st i = some nd) :
    ∀ (ids : List Nat) (vals : List T) (h : Option Nat) (k : Nat),
      NodeChain st h ids vals → ids.Nodup → ids[k]? = some i →
      NodeChain (setNext (st ++ [⟨v, nd.next⟩]) i (some st.length)) h
        (ids.take (k + 1) ++ st.length :: ids.drop (k + 1))
        (vals.take (k + 1) ++ v :: vals.drop (k + 1)) := by
  intro ids
  induction ids with
  | nil => intro vals h k _ _ hk; simp at hk
  | cons i0 is ih =>
    intro vals h k hc hnodup hk
    cases vals with
    | nil => exact absurd hc (by simp [NodeChain])
    | cons v0 vs =>
      obtain ⟨hh, nd0, hget0, hv0, hrest⟩ := nodeChain_cons.mp hc
      have hi0lt : i0 < st.length := getNode_lt_length hget0
      have hnotmem : i0 ∉ is := (List.nodup_cons.mp hnodup).1
      cases k with
      | zero =>
        have hij : i0 = i := by simpa using hk
        subst hij
        have hndeq : nd = nd0 := by rw [hnd] at hget0; exact Option.some_inj.mp hget0
        subst hndeq
        simp only [List.take_succ_cons, List.take_zero, List.drop_succ_cons, List.drop_zero,
          List.cons_append, List.nil_append]
        refine nodeChain_cons.mpr ⟨hh, ⟨nd.value, some st.length⟩, ?_, hv0, ?_⟩
        · exact getNode_setNext_self _ (by rw [getNode_append hi0lt]; exact hnd)
        · refine nodeChain_cons.mpr ⟨rfl, ⟨v, nd.next⟩, ?_, rfl, ?_⟩
          · rw [getNode_setNext_ne _ (by omega), getNode_append_self]
          · exact nodeChain_setNext _ is vs nd.next
              (nodeChain_append _ is vs nd.next hrest) hnotmem
      | succ k =>
        have hk' : is[k]? = some i := by simpa using hk
        have hne : i0 ≠ i := fun he => hnotmem (he ▸ mem_of_lookup hk')
        simp only [List.take_succ_cons, List.drop_succ_cons, List.cons_append]
        refine nodeChain_cons.mpr ⟨hh, nd0, ?_, hv0, ?_⟩
        · rw [getNode_setNext_ne _ hne, getNode_append hi0lt]; exact hget0
        · exact ih vs nd0.next k hrest (List.nodup_cons.mp hnodup).2 hk'

theorem nodeChain_snoc {st : Store T} (v : T) :
    ∀ (ids : List Nat) (vals : List T) (h : Option Nat) (t : Nat),
      NodeChain st h ids vals → ids.Nodup → ids[ids.length - 1]? = some t →
      NodeChain (setNext (st ++ [⟨v, none⟩]) t (some st.length)) h
        (ids ++ [st.length]) (vals ++ [v]) := by
  intro ids
  induction ids with
  | nil => intro vals h t _ _ hk; simp at hk
  | cons i0 is ih =>
    intro vals h t hc hnodup hk
    cases vals with
    | nil => exact absurd hc (by simp [NodeChain])
    | cons v0 vs =>
    obtain ⟨hh, nd0, hget0, hv0, hrest⟩ := nodeChain_cons.mp hc
    have hi0lt : i0 < st.length := getNode_lt_length hget0
    have hnotmem : i0 ∉ is := (List.nodup_cons.mp hnodup).1
    cases is with
    | nil =>
      have hvs : vs = [] := by
        have h0 : vs.length = 0 := by
          simpa using (nodeChain_length [] vs nd0.next hrest).symm
        exact List.length_eq_zero.mp h0
      subst hvs
      have ht0 : i0 = t := by simpa using hk
      subst ht0
      simp only [List.cons_append, List.nil_append]
      refine nodeChain_cons.mpr ⟨hh, ⟨nd0.value, some st.length⟩, ?_, hv0, ?_⟩
      · exact getNode_setNext_self _ (by rw [getNode_append hi0lt]; exact hget0)
      · refine nodeChain_cons.mpr ⟨rfl, ⟨v, none⟩, ?_, rfl, rfl⟩
        rw [getNode_setNext_ne _ (by omega), getNode_append_self]
    | cons i1 is' =>
      have hk' : (i1 :: is')[(i1 :: is').length - 1]? = some t := by
        simpa [Nat.succ_sub_one] using hk
      have hne : i0 ≠ t := fun he => hnotmem (he ▸ mem_of_lookup hk')
      simp only [List.cons_append]
      refine nodeChain_cons.mpr ⟨hh, nd0, ?_, hv0, ?_⟩
      · rw [getNode_setNext_ne _ hne, getNode_append hi0lt]; exact hget0
      · exact ih vs nd0.next t hrest (List.nodup_cons.mp hnodup).2 hk'

theorem chainValsFuel_eq {st : Store T} :
    ∀ (ids : List Nat) (vals : List T) (h : Option Nat) (fuel : Nat),
      NodeChain st h ids vals → ids.length ≤ fuel →
      chainValsFuel st fuel h = vals := by
  intro ids
  induction ids with
  | nil =>
    intro vals h fuel hc _
    cases vals with
    | nil =>
      have hn : h = none := hc
      subst hn
      cases fuel <;> rfl
    | cons v vs => exact absurd hc (by simp [NodeChain])
  | cons i0 is ih =>
    intro vals h fuel hc hfuel
    cases vals with
    | nil => exact absurd hc (by simp [NodeChain])
    | cons v vs =>
      obtain ⟨hh, nd0, hget0, hv0, hrest⟩ := nodeChain_cons.mp hc
      subst hh
      cases fuel with
      | zero => simp at hfuel
      | succ m =>
        rw [chainValsFuel, hget0]
        show nd0.value :: chainValsFuel st m nd0.next = v :: vs
        rw [hv0, ih vs nd0.next m hrest (by simpa using hfuel)]

theorem length_le_of_nodup_valid {ids : List Nat} {n : Nat}
    (hnd : ids.Nodup) (hv : ∀ i ∈ ids, i < n) : ids.length ≤ n := by
  classical
  have h1 : ids.toFinset.card = ids.length := List.toFinset_card_of_nodup hnd
  have h2 : ids.toFinset ⊆ Finset.range n := by
    intro i hi
    simp only [List.mem_toFinset] at hi
    exact Finset.mem_range.mpr (hv i hi)
  calc ids.length = ids.toFinset.card := h1.symm
    _ ≤ (Finset.range n).card := Finset.card_le_card h2
    _ = n := Finset.card_range n

theorem renderLoop_false_eq (f : T → String) :
    ∀ (c : List T), c ≠ [] → renderLoop f false c = sepArrow ++ specRenderCore f c := by
  intro c
  induction c with
  | nil => intro hne; exact absurd rfl hne
  | cons x rest ih =>
    intro _
    cases rest with
    | nil => simp [renderLoop, specRenderCore, String.append_assoc]
    | cons y rest2 =>
      rw [renderLoop, if_neg (by simp), ih (by simp), specRenderCore]
      simp [String.append_assoc]

theorem renderLoop_true_eq (f : T → String) :
    ∀ (c : List T), renderLoop f true c = specRenderCore f c := by
  intro c
  cases c with
  | nil => rfl
  | cons x rest =>
    cases rest with
    | nil => simp [renderLoop, specRenderCore, String.empty_append, String.append_empty]
    | cons y rest2 =>
      rw [renderLoop, if_pos rfl, renderLoop_false_eq f (y :: rest2) (by simp), specRenderCore]
      simp [String.append_assoc, String.empty_append]

theorem matchIxFrom_lb [DecidableEq T] (v : T) :
    ∀ (vs : List T) (s : Nat), ∀ k ∈ matchIxFrom v s vs, s ≤ k := by
  intro vs
  induction vs with
  | nil => intro s k hk; simp [matchIxFrom] at hk
  | cons x xs ih =>
    intro s k hk
    by_cases hx : x = v
    · rw [matchIxFrom, if_pos hx] at hk
      rcases List.mem_cons.mp hk with h1 | h1
      · omega
      · have := ih (s + 1) k h1; omega
    · rw [matchIxFrom, if_neg hx] at hk
      have := ih (s + 1) k hk; omega

theorem matchIxFrom_pairwise [DecidableEq T] (v : T) :
    ∀ (vs : List T) (s : Nat), (matchIxFrom v s vs).Pairwise (· < ·) := by
  intro vs
  induction vs with
  | nil => intro s; simp [matchIxFrom]
  | cons x xs ih =>
    intro s
    by_cases hx : x = v
    · rw [matchIxFrom, if_pos hx]
      refine List.pairwise_cons.mpr ⟨fun k hk => ?_, ih (s + 1)⟩
      have := matchIxFrom_lb v xs (s + 1) k hk; omega
    · rw [matchIxFrom, if_neg hx]
      exact ih (s + 1)

theorem matchIxFrom_mem [DecidableEq T] (v : T) :
    ∀ (vs : List T) (s k : Nat),
      k ∈ matchIxFrom v s vs ↔ ∃ d, k = s + d ∧ vs[d]? = some v := by
  intro vs
  induction vs with
  | nil =>
    intro s k
    simp [matchIxFrom]
  | cons x xs ih =>
    intro s k
    constructor
    · intro hk
      by_cases hx : x = v
      · rw [matchIxFrom, if_pos hx] at hk
        rcases List.mem_cons.mp hk with h1 | h1
        · exact ⟨0, by omega, by simp [hx]⟩
        · obtain ⟨d, hd1, hd2⟩ := (ih (s + 1) k).mp h1
          exact ⟨d + 1, by omega, by simpa using hd2⟩
      · rw [matchIxFrom, if_neg hx] at hk
        obtain ⟨d, hd1, hd2⟩ := (ih (s + 1) k).mp hk
        exact ⟨d + 1, by omega, by simpa using hd2⟩
    · rintro ⟨d, hd1, hd2⟩
      cases d with
      | zero =>
        have hx : x = v := by simpa using hd2
        have hks : k = s := by omega
        subst hks
        rw [matchIxFrom, if_pos hx]
        exact List.mem_cons_self _ _
      | succ d =>
        have hd2' : xs[d]? = some v := by simpa using hd2
        have hmem : k ∈ matchIxFrom v (s + 1) xs := (ih (s + 1) k).mpr ⟨d, by omega, hd2'⟩
        by_cases hx : x = v
        · rw [matchIxFrom, if_pos hx]
          exact List.mem_cons_of_mem _ hmem
        · rw [matchIxFrom, if_neg hx]
          exact hmem

end Stl

namespace BoxLL

open Stl

/-- Error enumeration of the Box variant (`box_linked_list.rs`). -/
inductive LinkedListError
  | RemoveWhileNextIsNone
  | InsertOutOfRange
  | RemoveOutOfRange
  | PopFromEmptyList
  | RemoveFromEmptyList
deriving DecidableEq

/-- Box-variant list: the length field and the values on the uniquely
owned chain hanging off `head` (head-to-tail order). -/
structure LinkedList (T : Type) where
  len : Nat
  chain : List T
deriving DecidableEq

variable {T : Type}

/-- `LinkedList::new`. -/
def new : LinkedList T := ⟨0, []⟩

/-- `LinkedListNode::insert`: splice a new node carrying `v` directly
after the node heading the given chain suffix.  The empty case is
unreachable from the list operations (they always hold a node). -/
def node_insert (v : T) : List T → List T
  | [] => [v]
  | x :: rest => x :: v :: rest

/-- `LinkedListNode::remove`: detach the successor of the node heading
the suffix, returning its value and the relinked suffix.  The empty case
is unreachable from the list operations. -/
def node_remove : List T → Except LinkedListError T × List T
  | [] => (.error .RemoveWhileNextIsNone, [])
  | [x] => (.error .RemoveWhileNextIsNone, [x])
  | x :: y :: rest => (.ok y, x :: rest)

/-- The `push_back` walk: advance while `next` is `Some`, then
`LinkedListNode::insert` after the node reached (the last node). -/
def walkInsertLast (v : T) : List T → List T
  | [] => [v]
  | [x] => [x, v]
  | x :: y :: rest => x :: walkInsertLast v (y :: rest)

/-- The `pop_back` walk (taken when `len >= 2`): advance while the node
after next exists, then `LinkedListNode::remove` there; `none` models the
panics hit when the chain is shorter than two nodes. -/
def walkRemoveLast : List T → Option (Except LinkedListError T × List T)
  | [] => none
  | [_] => none
  | [x, y] => some (.ok y, [x])
  | x :: y :: z :: rest =>
    (walkRemoveLast (y :: z :: rest)).map fun p => (p.1, x :: p.2)

/-- The indexed-operation walk: `head.unwrap()` followed by `k` steps of
`current = current.next.unwrap()`; returns the chain suffix headed by the
node reached, `none` for the panic on a missing node. -/
def walkTo : Nat → List T → Option (List T)
  | _, [] => none
  | 0, c => some c
  | k + 1, _ :: rest => walkTo k rest

/-- `LinkedList::push_head`. -/
def push_head (l : LinkedList T) (v : T) : LinkedList T := ⟨l.len + 1, v :: l.chain⟩

/-- `LinkedList::push_back`. -/
def push_back (l : LinkedList T) (v : T) : LinkedList T :=
  match l.len with
  | 0 => push_head l v
  | _ + 1 => ⟨l.len + 1, walkInsertLast v l.chain⟩

/-- `LinkedList::pop_head`; `none` models the head-unwrap panic
(unreachable when `len` matches the chain). -/
def pop_head (l : LinkedList T) : Option (Except LinkedListError T × LinkedList T) :=
  match l.len with
  | 0 => some (.error .PopFromEmptyList, l)
  | _ + 1 =>
    match l.chain with
    | [] => none
    | x :: rest => some (.ok x, ⟨l.len - 1, rest⟩)

/-- `LinkedList::pop_back`. -/
def pop_back (l : LinkedList T) : Option (Except LinkedListError T × LinkedList T) :=
  match l.len with
  | 0 => some (.error .PopFromEmptyList, l)
  | 1 => pop_head l
  | _ + 2 =>
    (walkRemoveLast l.chain).map fun p => (p.1, ⟨l.len - 1, p.2⟩)

/-- `LinkedList::insert`. -/
def insert (l : LinkedList T) (v : T) (at_ : Nat) :
    Option (Except LinkedListError Unit × LinkedList T) :=
  if at_ = 0 then some (.ok (), push_head l v)
  else if at_ < l.len + 1 then
    match walkTo (at_ - 1) l.chain with
    | none => none
    | some suffix =>
      some (.ok (), ⟨l.len + 1, l.chain.take (at_ - 1) ++ node_insert v suffix⟩)
  else some (.error .InsertOutOfRange, l)

/-- `LinkedList::remove`. -/
def remove (l : LinkedList T) (at_ : Nat) :
    Option (Except LinkedListError T × LinkedList T) :=
  if l.len = 0 then some (.error .RemoveFromEmptyList, l)
  else if at_ = 0 then pop_head l
  else if at_ < l.len then
    match walkTo (at_ - 1) l.chain with
    | none => none
    | some suffix =>
      some ((node_remove suffix).1, ⟨l.len - 1, l.chain.take (at_ - 1) ++ (node_remove suffix).2⟩)
  else some (.error .RemoveOutOfRange, l)

/-- `LinkedList::ix2val`. -/
def ix2val (l : LinkedList T) (ix : Nat) : Option (Option T) :=
  if ix ≥ l.len then some none
  else
    match walkTo ix l.chain with
    | none => none
    | some [] => none
    | some (x :: _) => some (some x)

/-- `LinkedList::get` (delegates to `ix2val`). -/
def get (l : LinkedList T) (ix : Nat) : Option (Option T) := ix2val l ix

/-- Loop body of the Box `val2ix`: `len` iterations, recording the index
when the current value matches, advancing only while `next` is `Some`. -/
def val2ixLoop [DecidableEq T] (v : T) : Nat → Nat → List T → List Nat
  | 0, _, _ => []
  | _ + 1, _, [] => []
  | n + 1, ix, [x] => (if x = v then [ix] else []) ++ val2ixLoop v n (ix + 1) [x]
  | n + 1, ix, x :: y :: rest =>
    (if x = v then [ix] else []) ++ val2ixLoop v n (ix + 1) (y :: rest)

/-- `LinkedList::val2ix` of the Box variant: one pass of `len` steps. -/
def val2ix [DecidableEq T] (l : LinkedList T) (v : T) : Option (List Nat) :=
  if l.len = 0 then some []
  else
    match l.chain with
    | [] => none
    | x :: c => some (val2ixLoop v l.len 0 (x :: c))

/-- Loop body of the Box `Display`: `len` iterations with a first-entry
flag, advancing only while `next` is `Some`. -/
def displayLoop (f : T → String) : Nat → Bool → List T → String
  | 0, _, _ => ""
  | _ + 1, _, [] => ""
  | n + 1, first, [x] => (if first then "" else sepArrow) ++ f x ++ displayLoop f n false [x]
  | n + 1, first, x :: y :: rest =>
    (if first then "" else sepArrow) ++ f x ++ displayLoop f n false (y :: rest)

/-- `impl Display for LinkedList` of the Box variant, with `f` rendering
a single value. -/
def display (f : T → String) (l : LinkedList T) : Option String :=
  if l.len = 0 then some emptyRender
  else
    match l.chain with
    | [] => none
    | x :: c => some (lpar ++ displayLoop f l.len true (x :: c) ++ rpar)

/-- `impl FromIterator for LinkedList`: start from `new`, `push_back`
every value in order. -/
def from_iter (vs : List T) : LinkedList T := List.foldl push_back new vs

/-- One full drain of `LinkedListIterator`: repeatedly take the current
node, yield its value, step to its successor. -/
def iterCollect : List T → List T
  | [] => []
  | x :: rest => x :: iterCollect rest

/-- `into_iter().collect()`: drain the consuming iterator started at the
list's head. -/
def into_iter_collect (l : LinkedList T) : List T := iterCollect l.chain

end BoxLL

namespace RcLL

open Stl

/-- Error enumeration of the Rc/RefCell variant (`linked_list.rs`). -/
inductive LinkedListError
  | EmptyList
  | InsertOutOfRange
  | RemoveOutOfRange
  | RemoveFromEmptyList
  | NextIsNone
deriving DecidableEq

/-- Rc/RefCell-variant list handle: length, head address, tail address.
The nodes themselves live in the shared `Store`; `head` and `tail` are
the two `Option<Rc<RefCell<...>>>` fields. -/
structure LinkedList where
  len : Nat
  head : Option Nat
  tail : Option Nat
deriving DecidableEq

variable {T : Type}

/-- `LinkedList::new`. -/
def new : LinkedList := ⟨0, none, none⟩

/-- `LinkedListNode::insert` on the node at address `i`: allocate a node
carrying `v` whose `next` is this node's old `next`, then point this
node's `next` at it.  `none` models an invalid address (never reached). -/
def node_insert (st : Store T) (i : Nat) (v : T) : Option (Store T) :=
  match getNode st i with
  | none => none
  | some nd =>
    let a := allocNode st ⟨v, nd.next⟩
    some (setNext a.1 i (some a.2))

/-- `LinkedListNode::remove` on the node at address `i`: when it has a
successor, return the successor's value and relink this node's `next` to
the successor's old `next` (the removed node itself is left in place,
mirroring that the dropped `Rc` keeps its fields); otherwise report
`NextIsNone`. -/
def node_remove (st : Store T) (i : Nat) :
    Option (Except LinkedListError T × Store T) :=
  match getNode st i with
  | none => none
  | some nd =>
    match nd.next with
    | none => some (.error .NextIsNone, st)
    | some j =>
      match getNode st j with
      | none => none
      | some jn => some (.ok jn.value, setNext st i jn.next)

/-- `LinkedList::push_head`. -/
def push_head (st : Store T) (l : LinkedList) (v : T) : Store T × LinkedList :=
  match l.len with
  | 0 =>
    let a := allocNode st ⟨v, none⟩
    (a.1, ⟨1, some a.2, some a.2⟩)
  | _ + 1 =>
    let a := allocNode st ⟨v, l.head⟩
    (a.1, ⟨l.len + 1, some a.2, l.tail⟩)

/-- `LinkedList::push_back`: insert after the node `tail` points at, then
move `tail` to that node's (new) successor. -/
def push_back (st : Store T) (l : LinkedList) (v : T) : Option (Store T × LinkedList) :=
  match l.len with
  | 0 => some (push_head st l v)
  | _ + 1 =>
    match l.tail with
    | none => none
    | some t =>
      match node_insert st t v with
      | none => none
      | some st1 => some (st1, ⟨l.len + 1, l.head, (getNode st1 t).bind Node.next⟩)

/-- `LinkedList::pop_head`. -/
def pop_head (st : Store T) (l : LinkedList) :
    Option (Except LinkedListError T × Store T × LinkedList) :=
  match l.len with
  | 0 => some (.error .EmptyList, st, l)
  | 1 =>
    match l.head with
    | none => none
    | some h =>
      match getNode st h with
      | none => none
      | some nd => some (.ok nd.value, st, ⟨0, none, none⟩)
  | _ + 2 =>
    match l.head with
    | none => none
    | some h =>
      match getNode st h with
      | none => none
      | some nd => some (.ok nd.value, st, ⟨l.len - 1, nd.next, l.tail⟩)

/-- `LinkedList::pop_back`: walk `len - 2` steps from `head`, remove the
successor of the node reached, repoint `tail` at that node. -/
def pop_back (st : Store T) (l : LinkedList) :
    Option (Except LinkedListError T × Store T × LinkedList) :=
  match l.len with
  | 0 => some (.error .EmptyList, st, l)
  | 1 => pop_head st l
  | _ + 2 =>
    match l.head with
    | none => none
    | some h =>
      match traverseN st h (l.len - 2) with
      | none => none
      | some curr =>
        match node_remove st curr with
        | none => none
        | some (.error _, _) => none
        | some (.ok v, st1) => some (.ok v, st1, ⟨l.len - 1, l.head, some curr⟩)

/-- `LinkedList::insert`. -/
def insert (st : Store T) (l : LinkedList) (v : T) (at_ : Nat) :
    Option (Except LinkedListError Unit × Store T × LinkedList) :=
  if at_ = 0 then
    let p := push_head st l v
    some (.ok (), p.1, p.2)
  else if at_ < l.len + 1 then
    match l.head with
    | none => none
    | some h =>
      match traverseN st h (at_ - 1) with
      | none => none
      | some curr =>
        match node_insert st curr v with
        | none => none
        | some st1 => some (.ok (), st1, ⟨l.len + 1, l.head, l.tail⟩)
  else some (.error .InsertOutOfRange, st, l)

/-- `LinkedList::remove`: note that the source never updates `tail` on
this path, even when the removed node is the one `tail` points at. -/
def remove (st : Store T) (l : LinkedList) (at_ : Nat) :
    Option (Except LinkedListError T × Store T × LinkedList) :=
  if at_ = 0 then
    if l.len = 0 then some (.error .RemoveFromEmptyList, st, l)
    else pop_head st l
  else if at_ < l.len then
    match l.head with
    | none => none
    | some h =>
      match traverseN st h (at_ - 1) with
      | none => none
      | some curr =>
        match node_remove st curr with
        | none => none
        | some (.error _, _) => none
        | some (.ok v, st1) => some (.ok v, st1, ⟨l.len - 1, l.head, l.tail⟩)
  else some (.error .RemoveOutOfRange, st, l)

/-- `LinkedList::ix2val`: `none` for out-of-range, wrapped in the outer
`Option` that models the traversal panics. -/
def ix2val (st : Store T) (l : LinkedList) (ix : Nat) : Option (Option T) :=
  if ix ≥ l.len then some none
  else
    match l.head with
    | none => none
    | some h =>
      match traverseN st h ix with
      | none => none
      | some c =>
        match getNode st c with
        | none => none
        | some nd => some (some nd.value)

/-- `LinkedList::get` (delegates to `ix2val`). -/
def get (st : Store T) (l : LinkedList) (ix : Nat) : Option (Option T) := ix2val st l ix

/-- Loop body of the Rc `val2ix`: `remaining` counted iterations that
record the index on a match and advance through `next.unwrap()`, then a
final check of the node reached. -/
def val2ixLoop [DecidableEq T] (st : Store T) (v : T) : Nat → Nat → Nat → Option (List Nat)
  | i, ix, 0 =>
    match getNode st i with
    | none => none
    | some nd => some (if nd.value = v then [ix] else [])
  | i, ix, k + 1 =>
    match getNode st i with
    | none => none
    | some nd =>
      match nd.next with
      | none => none
      | some j =>
        match val2ixLoop st v j (ix + 1) k with
        | none => none
        | some rest => some (if nd.value = v then ix :: rest else rest)

/-- `LinkedList::val2ix` of the Rc/RefCell variant: `len - 1` counted
steps, then the last node checked separately. -/
def val2ix [DecidableEq T] (st : Store T) (l : LinkedList) (v : T) : Option (List Nat) :=
  if l.len = 0 then some []
  else
    match l.head with
    | none => none
    | some h => val2ixLoop st v h 0 (l.len - 1)

/-- `impl Display for LinkedList` of the Rc/RefCell variant: a `while
let` walk of the chain from `head` (fuel `st.length` bounds the walk;
all modelled states are acyclic). -/
def display (f : T → String) (st : Store T) (l : LinkedList) : String :=
  lpar ++ renderLoop f true (chainValsFuel st st.length l.head) ++ rpar

/-- `#[derive(Clone)]` for the Rc/RefCell list: a field-wise copy, so the
clone holds the same two node addresses (`Rc::clone` shares the node). -/
def clone (l : LinkedList) : LinkedList := ⟨l.len, l.head, l.tail⟩

end RcLL

namespace NnLL

open Stl

/-- Error enumeration of the NonNull variant (`nonull_linked_list.rs`). -/
inductive LinkedListError
  | RemoveWhileNextIsNone
  | InsertOutOfRange
  | RemoveOutOfRange
  | PopFromEmptyList
  | RemoveFromEmptyList
deriving DecidableEq

/-- NonNull-variant list handle: length, head address, tail address. -/
structure LinkedList where
  len : Nat
  head : Option Nat
  tail : Option Nat
deriving DecidableEq

variable {T : Type}

/-- `LinkedList::new`. -/
def new : LinkedList := ⟨0, none, none⟩

/-- `LinkedList::push_head`: allocate a node pointing at the old head;
when the list was empty, `tail` is pointed at the new node as well. -/
def push_head (st : Store T) (l : LinkedList) (v : T) : Store T × LinkedList :=
  let a := allocNode st ⟨v, l.head⟩
  match l.head with
  | some _ => (a.1, ⟨l.len + 1, some a.2, l.tail⟩)
  | none => (a.1, ⟨l.len + 1, some a.2, some a.2⟩)

/-- `LinkedList::push_back`: allocate a node with no successor, link the
old tail node (when present) to it, point `tail` at it. -/
def push_back (st : Store T) (l : LinkedList) (v : T) : Store T × LinkedList :=
  let a := allocNode st ⟨v, none⟩
  match l.tail with
  | some t => (setNext a.1 t (some a.2), ⟨l.len + 1, l.head, some a.2⟩)
  | none => (a.1, ⟨l.len + 1, some a.2, some a.2⟩)

/-- `LinkedList::pop_head`: advance `head`; when the list becomes empty,
clear `tail` too.  (The freed node stays in the modelled store,
unreachable.) -/
def pop_head (st : Store T) (l : LinkedList) :
    Option (Except LinkedListError T × Store T × LinkedList) :=
  match l.head with
  | none => some (.error .PopFromEmptyList, st, l)
  | some h =>
    match getNode st h with
    | none => none
    | some nd =>
      match nd.next with
      | none => some (.ok nd.value, st, ⟨l.len - 1, none, none⟩)
      | some j => some (.ok nd.value, st, ⟨l.len - 1, some j, l.tail⟩)

/-- `LinkedList::insert`: index 0 is `push_head`, index `len` is
`push_back`, otherwise walk to `at - 1` and splice a fresh node in. -/
def insert (st : Store T) (l : LinkedList) (v : T) (at_ : Nat) :
    Option (Except LinkedListError Unit × Store T × LinkedList) :=
  if at_ > l.len then some (.error .InsertOutOfRange, st, l)
  else if at_ = 0 then
    let p := push_head st l v
    some (.ok (), p.1, p.2)
  else if at_ = l.len then
    let p := push_back st l v
    some (.ok (), p.1, p.2)
  else
    match l.head with
    | none => none
    | some h =>
      match traverseN st h (at_ - 1) with
      | none => none
      | some curr =>
        match getNode st curr with
        | none => none
        | some cnd =>
          let a := allocNode st ⟨v, cnd.next⟩
          some (.ok (), setNext a.1 curr (some a.2), ⟨l.len + 1, l.head, l.tail⟩)

/-- `LinkedList::remove`: any index at or past `len` (including index 0
on an empty list) reports `RemoveOutOfRange`; index 0 otherwise pops the
head; other indices walk to `at - 1`, unlink the successor, and repoint
`tail` when the removed node was the last one. -/
def remove (st : Store T) (l : LinkedList) (at_ : Nat) :
    Option (Except LinkedListError T × Store T × LinkedList) :=
  if at_ ≥ l.len then some (.error .RemoveOutOfRange, st, l)
  else if at_ = 0 then pop_head st l
  else
    match l.head with
    | none => none
    | some h =>
      match traverseN st h (at_ - 1) with
      | none => none
      | some curr =>
        match getNode st curr with
        | none => none
        | some cnd =>
          match cnd.next with
          | none => none
          | some j =>
            match getNode st j with
            | none => none
            | some jnd =>
              some (.ok jnd.value, setNext st curr jnd.next,
                ⟨l.len - 1, l.head, if jnd.next = none then some curr else l.tail⟩)

/-- `LinkedList::get` of the NonNull variant. -/
def get (st : Store T) (l : LinkedList) (ix : Nat) : Option (Option T) :=
  if ix ≥ l.len then some none
  else
    match l.head with
    | none => none
    | some h =>
      match traverseN st h ix with
      | none => none
      | some c =>
        match getNode st c with
        | none => none
        | some nd => some (some nd.value)

/-- `impl Display for LinkedList` of the NonNull variant: the same
`while let` walk of the chain from `head`. -/
def display (f : T → String) (st : Store T) (l : LinkedList) : String :=
  lpar ++ renderLoop f true (chainValsFuel st st.length l.head) ++ rpar

end NnLL

namespace BoxLL

open Stl

variable {T : Type}

theorem walkTo_eq_drop :
    ∀ (c : List T) (k : Nat), k < c.length → walkTo k c = some (c.drop k) := by
  intro c
  induction c with
  | nil => intro k hk; simp at hk
  | cons x rest ih =>
    intro k hk
    cases k with
    | zero => simp [walkTo]
    | succ k =>
      rw [walkTo, List.drop_succ_cons]
      exact ih k (by simpa using hk)

theorem walkInsertLast_eq (v : T) :
    ∀ (c : List T), walkInsertLast v c = c ++ [v] := by
  intro c
  induction c with
  | nil => rfl
  | cons x rest ih =>
    cases rest with
    | nil => rfl
    | cons y rest2 => rw [walkInsertLast, ih]; rfl

theorem push_back_eq (l : LinkedList T) (v : T) (hwf : l.len = l.chain.length) :
    push_back l v = ⟨l.len + 1, l.chain ++ [v]⟩ := by
  obtain ⟨len, chain⟩ := l
  simp only at hwf
  cases len with
  | zero =>
    have hchain : chain = [] := List.length_eq_zero.mp hwf.symm
    subst hchain
    rfl
  | succ n => rw [push_back, walkInsertLast_eq]

theorem iterCollect_eq : ∀ (c : List T), iterCollect c = c := by
  intro c
  induction c with
  | nil => rfl
  | cons x rest ih => rw [iterCollect, ih]

theorem from_iter_eq :
    ∀ (vs : List T) (l : LinkedList T), l.len = l.chain.length →
      List.foldl push_back l vs = ⟨l.len + vs.length, l.chain ++ vs⟩ := by
  intro vs
  induction vs with
  | nil => intro l hwf; obtain ⟨len, chain⟩ := l; simp
  | cons v vs ih =>
    intro l hwf
    rw [List.foldl_cons, push_back_eq l v hwf,
      ih ⟨l.len + 1, l.chain ++ [v]⟩ (by simp [hwf])]
    simp only [List.append_assoc, List.singleton_append, List.length_cons]
    congr 1
    omega

theorem ix2val_eq (l : LinkedList T) (ix : Nat) (hwf : l.len = l.chain.length) :
    ix2val l ix = some l.chain[ix]? := by
  rw [ix2val]
  by_cases hge : ix ≥ l.len
  · rw [if_pos hge, List.getElem?_eq_none (by omega)]
  · rw [if_neg hge]
    have hlt : ix < l.chain.length := by omega
    rw [walkTo_eq_drop _ _ hlt, List.drop_eq_getElem_cons hlt,
      List.getElem?_eq_getElem hlt]

theorem displayLoop_eq (f : T → String) :
    ∀ (c : List T) (first : Bool), c ≠ [] →
      displayLoop f c.length first c = renderLoop f first c := by
  intro c
  induction c with
  | nil => intro first h; exact absurd rfl h
  | cons x rest ih =>
    intro first _
    cases rest with
    | nil => simp [displayLoop, renderLoop]
    | cons y rest2 =>
      show displayLoop f ((y :: rest2).length + 1) first (x :: y :: rest2) = _
      rw [displayLoop, renderLoop, ih false (by simp)]

theorem box_display_eq (f : T → String) (l : LinkedList T) (hwf : l.len = l.chain.length) :
    display f l = some (specRender f l.chain) := by
  obtain ⟨len, chain⟩ := l
  simp only at hwf
  subst hwf
  cases chain with
  | nil => rfl
  | cons x c =>
    have hd := displayLoop_eq f (x :: c) true (by simp)
    simp only [List.length_cons] at hd
    rw [display]
    simp only [List.length_cons]
    rw [if_neg (by omega), hd, renderLoop_true_eq]
    rfl

theorem val2ixLoop_eq [DecidableEq T] (v : T) :
    ∀ (c : List T) (ix : Nat), c ≠ [] →
      val2ixLoop v c.length ix c = matchIxFrom v ix c := by
  intro c
  induction c with
  | nil => intro ix h; exact absurd rfl h
  | cons x rest ih =>
    intro ix _
    cases rest with
    | nil =>
      show val2ixLoop v (0 + 1) ix [x] = _
      rw [val2ixLoop, val2ixLoop, matchIxFrom]
      by_cases hx : x = v <;> simp [hx, matchIxFrom]
    | cons y rest2 =>
      show val2ixLoop v ((y :: rest2).length + 1) ix (x :: y :: rest2) = _
      rw [val2ixLoop, ih (ix + 1) (by simp)]
      by_cases hx : x = v <;> simp [hx, matchIxFrom]

theorem box_val2ix_eq [DecidableEq T] (l : LinkedList T) (v : T)
    (hwf : l.len = l.chain.length) :
    val2ix l v = some (matchIxFrom v 0 l.chain) := by
  obtain ⟨len, chain⟩ := l
  simp only at hwf
  subst hwf
  cases chain with
  | nil => rfl
  | cons x c =>
    have hv := val2ixLoop_eq v (x :: c) 0 (by simp)
    simp only [List.length_cons] at hv
    rw [val2ix]
    simp only [List.length_cons]
    rw [if_neg (by omega), hv]

theorem insert_splice (l : LinkedList T) (v : T) (at_ : Nat)
    (hwf : l.len = l.chain.length) (hle : at_ ≤ l.len) :
    insert l v at_ =
      some (.ok (), ⟨l.len + 1, l.chain.take at_ ++ v :: l.chain.drop at_⟩) := by
  rw [insert]
  by_cases h0 : at_ = 0
  · subst h0
    simp [push_head]
  · rw [if_neg h0, if_pos (by omega)]
    have hm : at_ - 1 < l.chain.length := by omega
    rw [walkTo_eq_drop _ _ hm, List.drop_eq_getElem_cons hm]
    simp only [node_insert]
    have h1 : l.chain.take at_ = l.chain.take (at_ - 1) ++ [l.chain[at_ - 1]] := by
      have ha : at_ = (at_ - 1) + 1 := by omega
      conv => lhs; rw [ha]
      rw [List.take_succ, List.getElem?_eq_getElem hm]
      rfl
    have h2 : at_ - 1 + 1 = at_ := by omega
    rw [h2, h1, List.append_assoc, List.singleton_append]

end BoxLL


namespace RcLL

open Stl

variable {T : Type}

theorem ix2val_eq_of_chain (st : Store T) (l : LinkedList) (ids : List Nat)
    (vals : List T) (hc : NodeChain st l.head ids vals) (hlen : l.len = ids.length)
    {ix : Nat} {w : T} (hw : vals[ix]? = some w) :
    ix2val st l ix = some (some w) := by
  have hlv : ids.length = vals.length := nodeChain_length ids vals l.head hc
  have hixlt : ix < vals.length := (List.getElem?_eq_some.mp hw).1
  have hik : ids[ix]? = some ids[ix] := List.getElem?_eq_getElem (by omega)
  obtain ⟨i0, nd, hh, htrav, hget, hval⟩ :=
    nodeChain_traverse ids vals l.head ix ids[ix] hc hik
  have hwv : nd.value = w := by
    rw [hval] at hw
    exact Option.some_inj.mp hw
  rw [ix2val, if_neg (by omega)]
  simp only [hh, htrav, hget, hwv]

theorem val2ixLoop_chain [DecidableEq T] (st : Store T) (v : T) :
    ∀ (ids : List Nat) (vals : List T) (i0 : Nat) (ix : Nat),
      NodeChain st (some i0) ids vals →
      val2ixLoop st v i0 ix (ids.length - 1) = some (matchIxFrom v ix vals) := by
  intro ids
  induction ids with
  | nil =>
    intro vals i0 ix hc
    exact absurd hc (by cases vals <;> simp [Stl.NodeChain])
  | cons j is ih =>
    intro vals i0 ix hc
    cases vals with
    | nil => exact absurd hc (by simp [Stl.NodeChain])
    | cons v0 vs =>
      obtain ⟨hh, nd0, hget0, hv0, hrest⟩ := nodeChain_cons.mp hc
      have hij : i0 = j := Option.some_inj.mp hh
      subst hij
      cases is with
      | nil =>
        have hvs : vs = [] := by
          have h0 : vs.length = 0 := by
            simpa using (nodeChain_length [] vs nd0.next hrest).symm
          exact List.length_eq_zero.mp h0
        subst hvs
        show val2ixLoop st v i0 ix 0 = _
        simp only [val2ixLoop, hget0, hv0]
        by_cases hx : v0 = v <;> simp [hx, matchIxFrom]
      | cons j2 is' =>
        have hh2 : nd0.next = some j2 := by
          cases vs with
          | nil => exact absurd hrest (by simp [Stl.NodeChain])
          | cons w ws => exact (nodeChain_cons.mp hrest).1
        have ihh := ih vs j2 (ix + 1) (hh2 ▸ hrest)
        simp only [List.length_cons, Nat.add_sub_cancel] at ihh
        show val2ixLoop st v i0 ix (is'.length + 1) = _
        simp only [val2ixLoop, hget0, hh2, ihh, hv0]
        by_cases hx : v0 = v <;> simp [hx, matchIxFrom]

theorem rc_val2ix_eq [DecidableEq T] (st : Store T) (l : LinkedList) (ids : List Nat)
    (vals : List T) (v : T) (hc : NodeChain st l.head ids vals)
    (hlen : l.len = ids.length) :
    val2ix st l v = some (matchIxFrom v 0 vals) := by
  rw [val2ix]
  by_cases h0 : l.len = 0
  · rw [if_pos h0]
    have hids : ids = [] := List.length_eq_zero.mp (by omega)
    subst hids
    have hvals : vals = [] := by
      have hl : vals.length = 0 := by
        simpa using (nodeChain_length [] vals l.head hc).symm
      exact List.length_eq_zero.mp hl
    subst hvals
    rfl
  · rw [if_neg h0]
    cases ids with
    | nil =>
      simp only [List.length_nil] at hlen
      omega
    | cons i0 is =>
      cases vals with
      | nil => exact absurd hc (by cases h : l.head <;> simp [Stl.NodeChain, h])
      | cons v0 vs =>
        have hh : l.head = some i0 := (nodeChain_cons.mp hc).1
        have hl := val2ixLoop_chain st v (i0 :: is) (v0 :: vs) i0 0 (hh ▸ hc)
        simp only [hh]
        rw [hlen]
        exact hl

theorem rc_display_eq (f : T → String) (st : Store T) (l : LinkedList) (ids : List Nat)
    (vals : List T) (hc : NodeChain st l.head ids vals) (hnd : ids.Nodup) :
    display f st l = specRender f vals := by
  have hfuel : ids.length ≤ st.length :=
    length_le_of_nodup_valid hnd (nodeChain_valid ids vals l.head hc)
  rw [display, specRender,
    chainValsFuel_eq ids vals l.head st.length hc hfuel, renderLoop_true_eq]

theorem rc_insert_get (st : Store T) (l : LinkedList) (ids : List Nat) (vals : List T)
    (v : T) (at_ : Nat) (hc : NodeChain st l.head ids vals) (hnd : ids.Nodup)
    (hlen : l.len = ids.length) (hle : at_ ≤ l.len) :
    ∃ st2 l2, insert st l v at_ = some (.ok (), st2, l2) ∧
      l2.len = l.len + 1 ∧ get st2 l2 at_ = some (some v) := by
  have hlv : ids.length = vals.length := nodeChain_length ids vals l.head hc
  obtain ⟨len, hd, tl⟩ := l
  simp only at hc hlen hle
  by_cases h0 : at_ = 0
  · subst h0
    cases len with
    | zero =>
      refine ⟨st ++ [⟨v, none⟩], ⟨1, some st.length, some st.length⟩, ?_, rfl, ?_⟩
      · rw [insert, if_pos rfl]
        rfl
      · rw [get, ix2val, if_neg (show ¬(0 ≥ 1) by omega)]
        simp only [traverseN, getNode_append_self]
    | succ n =>
      refine ⟨st ++ [⟨v, hd⟩], ⟨n + 1 + 1, some st.length, tl⟩, ?_, rfl, ?_⟩
      · rw [insert, if_pos rfl]
        rfl
      · rw [get, ix2val, if_neg (show ¬(0 ≥ n + 1 + 1) by omega)]
        simp only [traverseN, getNode_append_self]
  · have hm : at_ - 1 < ids.length := by omega
    have hik : ids[at_ - 1]? = some ids[at_ - 1] := List.getElem?_eq_getElem hm
    obtain ⟨i0, nd, hh, htrav, hget, hval⟩ :=
      nodeChain_traverse ids vals hd (at_ - 1) ids[at_ - 1] hc hik
    have hsp := nodeChain_splice v ids[at_ - 1] nd hget ids vals hd (at_ - 1) hc hnd hik
    have h2 : at_ - 1 + 1 = at_ := by omega
    rw [h2] at hsp
    have hlen2 : len + 1 = (ids.take at_ ++ st.length :: ids.drop at_).length := by
      simp only [List.length_append, List.length_cons, List.length_take, List.length_drop]
      omega
    refine ⟨setNext (st ++ [⟨v, nd.next⟩]) ids[at_ - 1] (some st.length),
      ⟨len + 1, hd, tl⟩, ?_, rfl, ?_⟩
    · rw [insert, if_neg h0, if_pos (show at_ < len + 1 by omega)]
      simp only [hh, htrav, node_insert, hget, allocNode]
    · have hw : (vals.take at_ ++ v :: vals.drop at_)[at_]? = some v := by
        have hta : (vals.take at_).length = at_ := by
          simp only [List.length_take]
          omega
        rw [List.getElem?_append_right (by omega), hta]
        simp
      exact ix2val_eq_of_chain _ ⟨len + 1, hd, tl⟩ _ _ hsp hlen2 hw

end RcLL

namespace NnLL

open Stl

variable {T : Type}

theorem get_eq_of_chain (st : Store T) (l : LinkedList) (ids : List Nat)
    (vals : List T) (hc : NodeChain st l.head ids vals) (hlen : l.len = ids.length)
    {ix : Nat} {w : T} (hw : vals[ix]? = some w) :
    get st l ix = some (some w) := by
  have hlv : ids.length = vals.length := nodeChain_length ids vals l.head hc
  have hixlt : ix < vals.length := (List.getElem?_eq_some.mp hw).1
  have hik : ids[ix]? = some ids[ix] := List.getElem?_eq_getElem (by omega)
  obtain ⟨i0, nd, hh, htrav, hget, hval⟩ :=
    nodeChain_traverse ids vals l.head ix ids[ix] hc hik
  have hwv : nd.value = w := by
    rw [hval] at hw
    exact Option.some_inj.mp hw
  rw [get, if_neg (by omega)]
  simp only [hh, htrav, hget, hwv]

theorem nn_display_eq (f : T → String) (st : Store T) (l : LinkedList) (ids : List Nat)
    (vals : List T) (hc : NodeChain st l.head ids vals) (hnd : ids.Nodup) :
    display f st l = specRender f vals := by
  have hfuel : ids.length ≤ st.length :=
    length_le_of_nodup_valid hnd (nodeChain_valid ids vals l.head hc)
  rw [display, specRender,
    chainValsFuel_eq ids vals l.head st.length hc hfuel, renderLoop_true_eq]

theorem nn_insert_get (st : Store T) (l : LinkedList) (ids : List Nat) (vals : List T)
    (v : T) (at_ : Nat) (hc : NodeChain st l.head ids vals) (hnd : ids.Nodup)
    (hlen : l.len = ids.length) (htl : l.tail = ids[ids.length - 1]?)
    (hle : at_ ≤ l.len) :
    ∃ st2 l2, insert st l v at_ = some (.ok (), st2, l2) ∧
      l2.len = l.len + 1 ∧ get st2 l2 at_ = some (some v) := by
  have hlv : ids.length = vals.length := nodeChain_length ids vals l.head hc
  obtain ⟨len, hd, tl⟩ := l
  simp only at hc hlen hle htl
  by_cases h0 : at_ = 0
  · subst h0
    have hph : ∃ tl2, push_head st ⟨len, hd, tl⟩ v =
        (st ++ [⟨v, hd⟩], ⟨len + 1, some st.length, tl2⟩) := by
      rw [push_head]
      cases hd with
      | none => exact ⟨some st.length, rfl⟩
      | some h1 => exact ⟨tl, rfl⟩
    obtain ⟨tl2, hph⟩ := hph
    refine ⟨st ++ [⟨v, hd⟩], ⟨len + 1, some st.length, tl2⟩, ?_, rfl, ?_⟩
    · rw [insert, if_neg (show ¬(0 > len) by omega), if_pos rfl, hph]
    · rw [get, if_neg (show ¬(0 ≥ len + 1) by omega)]
      simp only [traverseN, getNode_append_self]
  · by_cases hatl : at_ = len
    · subst hatl
      have hit : ids[ids.length - 1]? = some ids[ids.length - 1] :=
        List.getElem?_eq_getElem (by omega)
      have hsn := nodeChain_snoc v ids vals hd ids[ids.length - 1] hc hnd hit
      refine ⟨setNext (st ++ [⟨v, none⟩]) ids[ids.length - 1] (some st.length),
        ⟨at_ + 1, hd, some st.length⟩, ?_, rfl, ?_⟩
      · rw [insert, if_neg (show ¬(at_ > at_) by omega), if_neg h0,
          if_pos rfl, push_back, htl, hit]
        simp only [allocNode]
      · have hw : (vals ++ [v])[at_]? = some v := by
          have hvl : vals.length = at_ := by omega
          rw [← hvl]
          exact List.getElem?_concat_length vals v
        refine get_eq_of_chain _ ⟨at_ + 1, hd, some st.length⟩ (ids ++ [st.length])
          (vals ++ [v]) hsn ?_ hw
        simp only [List.length_append, List.length_cons, List.length_nil]
        omega
    · have hm : at_ - 1 < ids.length := by omega
      have hik : ids[at_ - 1]? = some ids[at_ - 1] := List.getElem?_eq_getElem hm
      obtain ⟨i0, nd, hh, htrav, hget, hval⟩ :=
        nodeChain_traverse ids vals hd (at_ - 1) ids[at_ - 1] hc hik
      have hsp := nodeChain_splice v ids[at_ - 1] nd hget ids vals hd (at_ - 1) hc hnd hik
      have h2 : at_ - 1 + 1 = at_ := by omega
      rw [h2] at hsp
      have hlen2 : len + 1 = (ids.take at_ ++ st.length :: ids.drop at_).length := by
        simp only [List.length_append, List.length_cons, List.length_take, List.length_drop]
        omega
      refine ⟨setNext (st ++ [⟨v, nd.next⟩]) ids[at_ - 1] (some st.length),
        ⟨len + 1, hd, tl⟩, ?_, rfl, ?_⟩
      · rw [insert, if_neg (show ¬(at_ > len) by omega), if_neg h0, if_neg hatl]
        simp only [hh, htrav, hget, allocNode]
      · have hw : (vals.take at_ ++ v :: vals.drop at_)[at_]? = some v := by
          have hta : (vals.take at_).length = at_ := by
            simp only [List.length_take]
            omega
          rw [List.getElem?_append_right (by omega), hta]
          simp
        exact get_eq_of_chain _ ⟨len + 1, hd, tl⟩ _ _ hsp hlen2 hw

end NnLL

open Stl

/-- C1 (code bug, Rc/RefCell variant): starting from the empty list, the
operation sequence `push_back 1; push_back 2; remove 1; push_back 3` ends
with `len() = 2` while only one element is reachable by following `next`
links from `head` to the end-of-chain marker.  `remove` of the last
element never updates `tail`, so the final `push_back` splices its node
behind the detached node instead of onto the chain. -/
theorem claim_C1_rc_len_reachability_bug :
    RcLL.push_back ([] : Store Nat) RcLL.new 1 =
      some ([⟨1, none⟩], ⟨1, some 0, some 0⟩)
    ∧ RcLL.push_back [⟨1, none⟩] ⟨1, some 0, some 0⟩ 2 =
      some ([⟨1, some 1⟩, ⟨2, none⟩], ⟨2, some 0, some 1⟩)
    ∧ RcLL.remove [⟨1, some 1⟩, ⟨2, none⟩] ⟨2, some 0, some 1⟩ 1 =
      some (.ok 2, [⟨1, none⟩, ⟨2, none⟩], ⟨1, some 0, some 1⟩)
    ∧ RcLL.push_back [⟨1, none⟩, ⟨2, none⟩] ⟨1, some 0, some 1⟩ 3 =
      some ([⟨1, none⟩, ⟨2, some 2⟩, ⟨3, none⟩], ⟨2, some 0, some 2⟩)
    ∧ chainValsFuel [⟨1, none⟩, ⟨2, some 2⟩, ⟨3, none⟩] 3 (some 0) = [1]
    ∧ (⟨2, some 0, some 2⟩ : RcLL.LinkedList).len ≠
        (chainValsFuel [⟨1, none⟩, ⟨2, some 2⟩, ⟨3, none⟩] 3 (some 0)).length :=
  ⟨rfl, rfl, rfl, rfl, rfl, by decide⟩

/-- C2 (code bug, Rc/RefCell variant): on the list `[1, 2]`, `remove(1)`
removes the last element (`at = len - 1`) but does not update `tail`:
afterwards the node reached from `head` in `len - 1 = 0` steps is node 0,
while `tail` still holds the detached node 1, and the subsequent
`push_back 3` therefore appends behind the detached node — the chain
from `head` stays `[1]` instead of becoming `[1, 3]`. -/
theorem claim_C2_rc_remove_tail_not_updated :
    RcLL.push_back ([] : Store Nat) RcLL.new 1 =
      some ([⟨1, none⟩], ⟨1, some 0, some 0⟩)
    ∧ RcLL.push_back [⟨1, none⟩] ⟨1, some 0, some 0⟩ 2 =
      some ([⟨1, some 1⟩, ⟨2, none⟩], ⟨2, some 0, some 1⟩)
    ∧ RcLL.remove [⟨1, some 1⟩, ⟨2, none⟩] ⟨2, some 0, some 1⟩ 1 =
      some (.ok 2, [⟨1, none⟩, ⟨2, none⟩], ⟨1, some 0, some 1⟩)
    ∧ traverseN [(⟨1, none⟩ : Node Nat), ⟨2, none⟩] 0 0 = some 0
    ∧ (⟨1, some 0, some 1⟩ : RcLL.LinkedList).tail ≠ some 0
    ∧ RcLL.push_back [⟨1, none⟩, ⟨2, none⟩] ⟨1, some 0, some 1⟩ 3 =
      some ([⟨1, none⟩, ⟨2, some 2⟩, ⟨3, none⟩], ⟨2, some 0, some 2⟩)
    ∧ chainValsFuel [⟨1, none⟩, ⟨2, some 2⟩, ⟨3, none⟩] 3 (some 0) = [1] :=
  ⟨rfl, rfl, rfl, rfl, by decide, rfl, rfl⟩

/-- C3 (code bug, NonNull variant): `remove(0)` on the empty list takes the
`at >= len` branch and returns `RemoveOutOfRange`, not the
remove-from-empty-list error that the claim — and the variant's own unit
test `test_remove` — expect. -/
theorem claim_C3_nn_remove_empty_error :
    NnLL.remove ([] : Store Nat) NnLL.new 0 =
      some (.error .RemoveOutOfRange, ([] : Store Nat), NnLL.new)
    ∧ NnLL.LinkedListError.RemoveOutOfRange ≠ NnLL.LinkedListError.RemoveFromEmptyList :=
  ⟨rfl, by decide⟩

/-- C10 (code bug, Rc/RefCell variant): the derived `Clone` copies the two
`Rc` handles, so the clone shares every node with the original.  After
cloning `[1, 2, 3]`, `pop_back()` on the original rewires the shared node 1
and the clone's chain observed from its own `head` becomes `[1, 2]` while
its `len()` still reads 3; `get(2)` on the clone now hits a missing
successor (a panic in the source), contradicting independence of the
clone. -/
theorem claim_C10_rc_clone_not_independent :
    RcLL.push_back ([] : Store Nat) RcLL.new 1 =
      some ([⟨1, none⟩], ⟨1, some 0, some 0⟩)
    ∧ RcLL.push_back [⟨1, none⟩] ⟨1, some 0, some 0⟩ 2 =
      some ([⟨1, some 1⟩, ⟨2, none⟩], ⟨2, some 0, some 1⟩)
    ∧ RcLL.push_back [⟨1, some 1⟩, ⟨2, none⟩] ⟨2, some 0, some 1⟩ 3 =
      some ([⟨1, some 1⟩, ⟨2, some 2⟩, ⟨3, none⟩], ⟨3, some 0, some 2⟩)
    ∧ RcLL.clone ⟨3, some 0, some 2⟩ = ⟨3, some 0, some 2⟩
    ∧ chainValsFuel [⟨1, some 1⟩, ⟨2, some 2⟩, ⟨3, none⟩] 3
        (RcLL.clone ⟨3, some 0, some 2⟩).head = [1, 2, 3]
    ∧ RcLL.pop_back [⟨1, some 1⟩, ⟨2, some 2⟩, ⟨3, none⟩] ⟨3, some 0, some 2⟩ =
      some (.ok 3, [⟨1, some 1⟩, ⟨2, none⟩, ⟨3, none⟩], ⟨2, some 0, some 1⟩)
    ∧ chainValsFuel [⟨1, some 1⟩, ⟨2, none⟩, ⟨3, none⟩] 3
        (RcLL.clone ⟨3, some 0, some 2⟩).head = [1, 2]
    ∧ (RcLL.clone ⟨3, some 0, some 2⟩).len = 3
    ∧ RcLL.get [⟨1, some 1⟩, ⟨2, none⟩, ⟨3, none⟩] (RcLL.clone ⟨3, some 0, some 2⟩) 2 =
        none :=
  ⟨rfl, rfl, rfl, rfl, rfl, rfl, rfl, rfl, rfl⟩

/-- C5 counterexample: on the empty Box-variant list, `remove(len())` is
`remove(0)` and returns `RemoveFromEmptyList`, not the out-of-range error
asserted by the claim. -/
theorem claim_C5_counterexample :
    BoxLL.remove (BoxLL.new : BoxLL.LinkedList Nat) (BoxLL.new : BoxLL.LinkedList Nat).len =
      some (.error .RemoveFromEmptyList, BoxLL.new)
    ∧ BoxLL.LinkedListError.RemoveFromEmptyList ≠ BoxLL.LinkedListError.RemoveOutOfRange :=
  ⟨rfl, by decide⟩

/-- C5 (amended): for every list in each of the three variants,
`insert(v, len() + 1)` returns the insert-out-of-range error and returns
the state unchanged, and `remove(len())` returns the state unchanged with
the remove-out-of-range error when the list is non-empty; on an empty
list the Box and Rc/RefCell variants return their remove-from-empty-list
error instead, while the NonNull variant returns the out-of-range error
even there. -/
theorem claim_C5_out_of_range_calls {T : Type} :
    (∀ (l : BoxLL.LinkedList T) (v : T),
      BoxLL.insert l v (l.len + 1) = some (.error .InsertOutOfRange, l)
      ∧ BoxLL.remove l l.len =
          some (.error (if l.len = 0 then .RemoveFromEmptyList else .RemoveOutOfRange), l))
    ∧ (∀ (st : Store T) (l : RcLL.LinkedList) (v : T),
      RcLL.insert st l v (l.len + 1) = some (.error .InsertOutOfRange, st, l)
      ∧ RcLL.remove st l l.len =
          some (.error (if l.len = 0 then .RemoveFromEmptyList else .RemoveOutOfRange), st, l))
    ∧ (∀ (st : Store T) (l : NnLL.LinkedList) (v : T),
      NnLL.insert st l v (l.len + 1) = some (.error .InsertOutOfRange, st, l)
      ∧ NnLL.remove st l l.len = some (.error .RemoveOutOfRange, st, l)) := by
  refine ⟨fun l v => ⟨?_, ?_⟩, fun st l v => ⟨?_, ?_⟩, fun st l v => ⟨?_, ?_⟩⟩
  · rw [BoxLL.insert, if_neg (by omega), if_neg (by omega)]
  · by_cases h : l.len = 0
    · rw [BoxLL.remove, if_pos h, if_pos h]
    · rw [BoxLL.remove, if_neg h, if_neg h, if_neg (by omega), if_neg h]
  · rw [RcLL.insert, if_neg (by omega), if_neg (by omega)]
  · by_cases h : l.len = 0
    · rw [RcLL.remove, if_pos h, if_pos h, if_pos h]
    · rw [RcLL.remove, if_neg h, if_neg (by omega), if_neg h]
  · rw [NnLL.insert, if_pos (by omega)]
  · rw [NnLL.remove, if_pos (by omega)]

/-- C4: for every well-formed list in each of the three variants and every
index `at <= len`, `insert(v, at)` succeeds, afterwards `get(at)` returns
`Some v` and `len()` has grown by exactly one; for `at > len` it fails
with the variant's insert-out-of-range error and leaves everything
unchanged. -/
theorem claim_C4_insert_contract {T : Type} :
    (∀ (l : BoxLL.LinkedList T) (v : T) (at_ : Nat), l.len = l.chain.length →
      (at_ ≤ l.len → ∃ l2, BoxLL.insert l v at_ = some (.ok (), l2) ∧
        l2.len = l.len + 1 ∧ BoxLL.get l2 at_ = some (some v))
      ∧ (l.len < at_ → BoxLL.insert l v at_ = some (.error .InsertOutOfRange, l)))
    ∧ (∀ (st : Store T) (l : RcLL.LinkedList) (ids : List Nat) (vals : List T)
        (v : T) (at_ : Nat),
        NodeChain st l.head ids vals → ids.Nodup → l.len = ids.length →
      (at_ ≤ l.len → ∃ st2 l2, RcLL.insert st l v at_ = some (.ok (), st2, l2) ∧
        l2.len = l.len + 1 ∧ RcLL.get st2 l2 at_ = some (some v))
      ∧ (l.len < at_ → RcLL.insert st l v at_ = some (.error .InsertOutOfRange, st, l)))
    ∧ (∀ (st : Store T) (l : NnLL.LinkedList) (ids : List Nat) (vals : List T)
        (v : T) (at_ : Nat),
        NodeChain st l.head ids vals → ids.Nodup → l.len = ids.length →
        l.tail = ids[ids.length - 1]? →
      (at_ ≤ l.len → ∃ st2 l2, NnLL.insert st l v at_ = some (.ok (), st2, l2) ∧
        l2.len = l.len + 1 ∧ NnLL.get st2 l2 at_ = some (some v))
      ∧ (l.len < at_ → NnLL.insert st l v at_ = some (.error .InsertOutOfRange, st, l))) := by
  refine ⟨fun l v at_ hwf => ⟨fun hle => ?_, fun hgt => ?_⟩,
    fun st l ids vals v at_ hc hnd hlen => ⟨fun hle => ?_, fun hgt => ?_⟩,
    fun st l ids vals v at_ hc hnd hlen htl => ⟨fun hle => ?_, fun hgt => ?_⟩⟩
  · refine ⟨⟨l.len + 1, l.chain.take at_ ++ v :: l.chain.drop at_⟩,
      BoxLL.insert_splice l v at_ hwf hle, rfl, ?_⟩
    have hwf2 : (⟨l.len + 1, l.chain.take at_ ++ v :: l.chain.drop at_⟩ :
        BoxLL.LinkedList T).len =
        (l.chain.take at_ ++ v :: l.chain.drop at_).length := by
      simp only [List.length_append, List.length_cons, List.length_take, List.length_drop]
      omega
    rw [BoxLL.get, BoxLL.ix2val_eq _ at_ hwf2]
    have hta : (l.chain.take at_).length = at_ := by
      simp only [List.length_take]
      omega
    have hx : (l.chain.take at_ ++ v :: l.chain.drop at_)[at_]? = some v := by
      rw [List.getElem?_append_right (by omega), hta]
      simp
    rw [hx]
  · rw [BoxLL.insert, if_neg (by omega), if_neg (by omega)]
  · exact RcLL.rc_insert_get st l ids vals v at_ hc hnd hlen hle
  · rw [RcLL.insert, if_neg (by omega), if_neg (by omega)]
  · exact NnLL.nn_insert_get st l ids vals v at_ hc hnd hlen htl hle
  · rw [NnLL.insert, if_pos (by omega)]

/-- C4 witness: the insert contract evaluated on concrete lists of each
variant. -/
theorem claim_C4_insert_contract_witness :
    (∃ l2, BoxLL.insert (⟨2, [10, 20]⟩ : BoxLL.LinkedList Nat) 7 1 =
      some (.ok (), l2) ∧ l2.len = 2 + 1 ∧ BoxLL.get l2 1 = some (some 7))
    ∧ (∃ st2 l2, RcLL.insert [(⟨5, none⟩ : Node Nat)] ⟨1, some 0, some 0⟩ 9 1 =
      some (.ok (), st2, l2) ∧ l2.len = 1 + 1 ∧ RcLL.get st2 l2 1 = some (some 9))
    ∧ (∃ st2 l2, NnLL.insert [(⟨5, none⟩ : Node Nat)] ⟨1, some 0, some 0⟩ 9 1 =
      some (.ok (), st2, l2) ∧ l2.len = 1 + 1 ∧ NnLL.get st2 l2 1 = some (some 9)) := by
  refine ⟨?_, ?_, ?_⟩
  · exact (claim_C4_insert_contract.1 ⟨2, [10, 20]⟩ 7 1 rfl).1 (by decide)
  · exact (claim_C4_insert_contract.2.1 [⟨5, none⟩] ⟨1, some 0, some 0⟩ [0] [5] 9 1
      (nodeChain_cons.mpr ⟨rfl, ⟨5, none⟩, rfl, rfl, rfl⟩) (by decide) rfl).1 (by decide)
  · exact (claim_C4_insert_contract.2.2 [⟨5, none⟩] ⟨1, some 0, some 0⟩ [0] [5] 9 1
      (nodeChain_cons.mpr ⟨rfl, ⟨5, none⟩, rfl, rfl, rfl⟩) (by decide) rfl rfl).1 (by decide)

/-- C6: on every well-formed list, the Rc/RefCell variant's `val2ix`
(a loop of `len - 1` counted steps followed by a separate check of the
last node) returns exactly the same index vector as the one-pass `val2ix`
of the Box variant: the strictly increasing sequence of all indices whose
element equals `v`, empty when none occur. -/
theorem claim_C6_val2ix_agree {T : Type} [DecidableEq T]
    (st : Store T) (l : RcLL.LinkedList) (ids : List Nat) (vals : List T)
    (b : BoxLL.LinkedList T) (v : T)
    (hc : NodeChain st l.head ids vals) (hlen : l.len = ids.length)
    (hb : b.chain = vals) (hbl : b.len = vals.length) :
    ∃ ixs, RcLL.val2ix st l v = some ixs ∧ BoxLL.val2ix b v = some ixs ∧
      ixs.Pairwise (· < ·) ∧ (∀ k, k ∈ ixs ↔ vals[k]? = some v) := by
  refine ⟨matchIxFrom v 0 vals, RcLL.rc_val2ix_eq st l ids vals v hc hlen, ?_, ?_, ?_⟩
  · rw [BoxLL.box_val2ix_eq b v (by rw [hb, hbl]), hb]
  · exact matchIxFrom_pairwise v vals 0
  · intro k
    rw [matchIxFrom_mem]
    constructor
    · rintro ⟨d, hd1, hd2⟩
      have hdk : d = k := by omega
      exact hdk ▸ hd2
    · intro hk
      exact ⟨k, by omega, hk⟩

/-- C6 witness: both searches evaluated on the concrete list `[1, 2, 3, 2]`
searching for `2`. -/
theorem claim_C6_val2ix_agree_witness :
    ∃ ixs, RcLL.val2ix [(⟨1, some 1⟩ : Node Nat), ⟨2, some 2⟩, ⟨3, some 3⟩, ⟨2, none⟩]
        ⟨4, some 0, some 3⟩ 2 = some ixs
      ∧ BoxLL.val2ix (⟨4, [1, 2, 3, 2]⟩ : BoxLL.LinkedList Nat) 2 = some ixs
      ∧ ixs.Pairwise (· < ·)
      ∧ (∀ k, k ∈ ixs ↔ ([1, 2, 3, 2] : List Nat)[k]? = some 2) := by
  exact claim_C6_val2ix_agree [⟨1, some 1⟩, ⟨2, some 2⟩, ⟨3, some 3⟩, ⟨2, none⟩]
    ⟨4, some 0, some 3⟩ [0, 1, 2, 3] [1, 2, 3, 2] ⟨4, [1, 2, 3, 2]⟩ 2
    (nodeChain_cons.mpr ⟨rfl, ⟨1, some 1⟩, rfl, rfl,
      nodeChain_cons.mpr ⟨rfl, ⟨2, some 2⟩, rfl, rfl,
        nodeChain_cons.mpr ⟨rfl, ⟨3, some 3⟩, rfl, rfl,
          nodeChain_cons.mpr ⟨rfl, ⟨2, none⟩, rfl, rfl, rfl⟩⟩⟩⟩)
    rfl rfl rfl

/-- C7: on every well-formed list of each of the three variants, the
rendered string is exactly the values in head-to-tail order separated by
`" -> "` with no trailing separator and wrapped in parentheses, with the
empty list rendering as `"()"` (the `specRender` form). -/
theorem claim_C7_display_format {T : Type} (f : T → String) :
    (∀ (l : BoxLL.LinkedList T), l.len = l.chain.length →
      BoxLL.display f l = some (specRender f l.chain))
    ∧ (∀ (st : Store T) (l : RcLL.LinkedList) (ids : List Nat) (vals : List T),
        NodeChain st l.head ids vals → ids.Nodup →
        RcLL.display f st l = specRender f vals)
    ∧ (∀ (st : Store T) (l : NnLL.LinkedList) (ids : List Nat) (vals : List T),
        NodeChain st l.head ids vals → ids.Nodup →
        NnLL.display f st l = specRender f vals)
    ∧ specRender f [] = emptyRender :=
  ⟨fun l hwf => BoxLL.box_display_eq f l hwf,
   fun st l ids vals hc hnd => RcLL.rc_display_eq f st l ids vals hc hnd,
   fun st l ids vals hc hnd => NnLL.nn_display_eq f st l ids vals hc hnd,
   rfl⟩

/-- C7 witness: the three renderings evaluated on concrete lists. -/
theorem claim_C7_display_format_witness :
    BoxLL.display Nat.repr (⟨3, [1, 2, 3]⟩ : BoxLL.LinkedList Nat) =
      some (specRender Nat.repr [1, 2, 3])
    ∧ RcLL.display Nat.repr [(⟨1, some 1⟩ : Node Nat), ⟨2, none⟩] ⟨2, some 0, some 1⟩ =
      specRender Nat.repr [1, 2]
    ∧ NnLL.display Nat.repr [(⟨1, some 1⟩ : Node Nat), ⟨2, none⟩] ⟨2, some 0, some 1⟩ =
      specRender Nat.repr [1, 2] := by
  refine ⟨?_, ?_, ?_⟩
  · exact (claim_C7_display_format Nat.repr).1 ⟨3, [1, 2, 3]⟩ rfl
  · exact (claim_C7_display_format Nat.repr).2.1 [⟨1, some 1⟩, ⟨2, none⟩]
      ⟨2, some 0, some 1⟩ [0, 1] [1, 2]
      (nodeChain_cons.mpr ⟨rfl, ⟨1, some 1⟩, rfl, rfl,
        nodeChain_cons.mpr ⟨rfl, ⟨2, none⟩, rfl, rfl, rfl⟩⟩) (by decide)
  · exact (claim_C7_display_format Nat.repr).2.2.1 [⟨1, some 1⟩, ⟨2, none⟩]
      ⟨2, some 0, some 1⟩ [0, 1] [1, 2]
      (nodeChain_cons.mpr ⟨rfl, ⟨1, some 1⟩, rfl, rfl,
        nodeChain_cons.mpr ⟨rfl, ⟨2, none⟩, rfl, rfl, rfl⟩⟩) (by decide)

/-- C8: for every well-formed Box-variant list, draining the consuming
iterator into a sequence and rebuilding a list from it with `from_iter`
yields a list whose display string equals the original's. -/
theorem claim_C8_roundtrip {T : Type} (f : T → String) (l : BoxLL.LinkedList T)
    (hwf : l.len = l.chain.length) :
    BoxLL.display f (BoxLL.from_iter (BoxLL.into_iter_collect l)) =
      BoxLL.display f l := by
  rw [BoxLL.into_iter_collect, BoxLL.iterCollect_eq, BoxLL.from_iter,
    BoxLL.from_iter_eq l.chain BoxLL.new rfl]
  rw [BoxLL.box_display_eq f _ (by simp [BoxLL.new]), BoxLL.box_display_eq f l hwf]
  simp [BoxLL.new]

/-- C8 witness: the round trip evaluated on the concrete list `[1, 2, 3]`. -/
theorem claim_C8_roundtrip_witness :
    BoxLL.display Nat.repr
        (BoxLL.from_iter (BoxLL.into_iter_collect (⟨3, [1, 2, 3]⟩ : BoxLL.LinkedList Nat))) =
      BoxLL.display Nat.repr (⟨3, [1, 2, 3]⟩ : BoxLL.LinkedList Nat) :=
  claim_C8_roundtrip Nat.repr ⟨3, [1, 2, 3]⟩ rfl

/-- C9: the node-level remove-after primitive fails with the no-successor
error exactly when the node's `next` link is none; otherwise it returns
`Ok` with the immediate successor's value and relinks the node's `next`
to the removed node's former `next` — shown for the Box variant's
`LinkedListNode::remove` and the Rc/RefCell variant's heap-level
`LinkedListNode::remove`. -/
theorem claim_C9_remove_after {T : Type} :
    (∀ (x : T) (rest : List T),
      (rest = [] →
        BoxLL.node_remove (x :: rest) = (.error .RemoveWhileNextIsNone, x :: rest))
      ∧ (∀ y rest2, rest = y :: rest2 →
        BoxLL.node_remove (x :: rest) = (.ok y, x :: rest2)))
    ∧ (∀ (st : Store T) (i : Nat) (nd : Node T), getNode st i = some nd →
      (nd.next = none → RcLL.node_remove st i = some (.error .NextIsNone, st))
      ∧ (∀ j jn, nd.next = some j → getNode st j = some jn →
        RcLL.node_remove st i = some (.ok jn.value, setNext st i jn.next)
        ∧ getNode (setNext st i jn.next) i = some ⟨nd.value, jn.next⟩)) := by
  refine ⟨fun x rest => ⟨fun h => ?_, fun y rest2 h => ?_⟩,
    fun st i nd hget => ⟨fun hn => ?_, fun j jn hj hgj => ⟨?_, ?_⟩⟩⟩
  · subst h; rfl
  · subst h; rfl
  · simp only [RcLL.node_remove, hget, hn]
  · simp only [RcLL.node_remove, hget, hj, hgj]
  · exact getNode_setNext_self jn.next hget

/-- C9 witness: the primitive evaluated on concrete nodes, once with and
once without a successor, in both modelled variants. -/
theorem claim_C9_remove_after_witness :
    BoxLL.node_remove ([1, 2, 3] : List Nat) = (.ok 2, [1, 3])
    ∧ BoxLL.node_remove ([1] : List Nat) =
        (.error .RemoveWhileNextIsNone, [1])
    ∧ RcLL.node_remove [(⟨1, some 1⟩ : Node Nat), ⟨2, none⟩] 0 =
        some (.ok 2, setNext [(⟨1, some 1⟩ : Node Nat), ⟨2, none⟩] 0 none)
    ∧ RcLL.node_remove [(⟨1, some 1⟩ : Node Nat), ⟨2, none⟩] 1 =
        some (.error .NextIsNone, [(⟨1, some 1⟩ : Node Nat), ⟨2, none⟩]) := by
  refine ⟨?_, ?_, ?_, ?_⟩
  · exact (claim_C9_remove_after.1 1 [2, 3]).2 2 [3] rfl
  · exact (claim_C9_remove_after.1 1 []).1 rfl
  · exact ((claim_C9_remove_after.2 [⟨1, some 1⟩, ⟨2, none⟩] 0 ⟨1, some 1⟩ rfl).2
      1 ⟨2, none⟩ rfl rfl).1
  · exact (claim_C9_remove_after.2 [⟨1, some 1⟩, ⟨2, none⟩] 1 ⟨2, none⟩ rfl).1 rfl
